import Mathlib

/-!
Shallow embedding of `heredity.py`: exact probabilistic inference over a
family pedigree (gene-count and trait marginals by brute-force enumeration).

Python floats are modelled by exact rationals (`ℚ`); Python dictionaries
keyed by person name are modelled by total functions out of `String`
(entries for names outside the pedigree are never observed); the mutable
`probabilities` table is threaded explicitly; Python's `ZeroDivisionError`
in `normalize` is modelled by `Except Unit`.
-/

attribute [local semireducible] Rat.add Rat.mul Rat.inv Rat.sub

namespace Heredity

/-- One row of the loaded data: `people[name]` in the source.  `mother`,
`father` and `trait` are `None`-able in Python, hence `Option` here. -/
structure Person where
  name : String
  mother : Option String
  father : Option String
  trait : Option Bool
  deriving DecidableEq, Repr

/-- `PROBS["gene"]` : unconditional probabilities for having the gene. -/
def PROBS_gene : Fin 3 → ℚ := fun g =>
  if g = 2 then 1/100 else if g = 1 then 3/100 else 96/100

/-- `PROBS["trait"]` : probability of the trait given the gene count. -/
def PROBS_trait : Fin 3 → Bool → ℚ := fun g t =>
  if g = 2 then (if t then 65/100 else 35/100)
  else if g = 1 then (if t then 56/100 else 44/100)
  else (if t then 1/100 else 99/100)

/-- `PROBS["mutation"]` : the mutation probability. -/
def PROBS_mutation : ℚ := 1/100

/-- The expression `1 if person in one_gene else 2 if person in two_genes else 0`
used throughout the source for a named person. -/
def hypGeneCount (one_gene two_genes : Finset String) (name : String) : Fin 3 :=
  if name ∈ one_gene then 1 else if name ∈ two_genes then 2 else 0

/-- The same expression applied to a parent field, which may be `None`:
in Python `None in one_gene` and `None in two_genes` are both false,
so a missing parent counts as having zero copies. -/
def parentGeneCount (one_gene two_genes : Finset String) (parent : Option String) : Fin 3 :=
  match parent with
  | none => 0
  | some n => hypGeneCount one_gene two_genes n

/-- `inherit_prob(num_genes)` from the source. -/
def inherit_prob (num_genes : Fin 3) : ℚ :=
  if num_genes = 1 then 1/2
  else if num_genes = 2 then 1 - PROBS_mutation
  else PROBS_mutation

/-- The three-way branch of `joint_probability` combining the two parents'
transmission probabilities for a given child gene count (source lines 163-174). -/
def twoParentGeneProb (f_prob m_prob : ℚ) (num_genes : Fin 3) : ℚ :=
  if num_genes = 1 then f_prob * (1 - m_prob) + m_prob * (1 - f_prob)
  else if num_genes = 2 then f_prob * m_prob
  else (1 - f_prob) * (1 - m_prob)

/-- The body of the `for person in people` loop of `joint_probability`:
one person's contribution to the joint probability. -/
def person_prob (one_gene two_genes have_trait : Finset String) (per : Person) : ℚ :=
  let num_genes := hypGeneCount one_gene two_genes per.name
  let has_trait := decide (per.name ∈ have_trait)
  let gene_prob :=
    if per.father = none ∧ per.mother = none then
      PROBS_gene num_genes
    else
      let f_prob := inherit_prob (parentGeneCount one_gene two_genes per.father)
      let m_prob := inherit_prob (parentGeneCount one_gene two_genes per.mother)
      twoParentGeneProb f_prob m_prob num_genes
  gene_prob * PROBS_trait num_genes has_trait

/-- `joint_probability(people, one_gene, two_genes, have_trait)` from the source:
the product over all people of their contributions. -/
def joint_probability (people : List Person)
    (one_gene two_genes have_trait : Finset String) : ℚ :=
  (people.map (person_prob one_gene two_genes have_trait)).prod

/-- One person's marginal table: the `{"gene": {2:_,1:_,0:_}, "trait": {True:_,False:_}}`
entry of `probabilities`. -/
structure Marginal where
  gene : Fin 3 → ℚ
  trait : Bool → ℚ

/-- The whole `probabilities` dictionary, as a function from names. -/
abbrev Marginals := String → Marginal

/-- The initial `probabilities` table of `main`: every bucket is `0`. -/
def initialMarginals : Marginals := fun _ => { gene := fun _ => 0, trait := fun _ => 0 }

/-- `update(probabilities, one_gene, two_genes, have_trait, p)` from the source:
for every person, add `p` to the gene bucket for their hypothesized gene count
and to the trait bucket for their hypothesized trait. -/
def update (probabilities : Marginals)
    (one_gene two_genes have_trait : Finset String) (p : ℚ) : Marginals :=
  fun person =>
    let num_genes := hypGeneCount one_gene two_genes person
    let has_trait := decide (person ∈ have_trait)
    let m := probabilities person
    { gene := Function.update m.gene num_genes (m.gene num_genes + p)
      trait := Function.update m.trait has_trait (m.trait has_trait + p) }

/-- The sum of one person's gene buckets (`sum(probabilities[person]["gene"].values())`). -/
def geneTotal (m : Marginal) : ℚ := m.gene 0 + m.gene 1 + m.gene 2

/-- The sum of one person's trait buckets. -/
def traitTotal (m : Marginal) : ℚ := m.trait true + m.trait false

/-- The rescaled marginal produced by one iteration of `normalize`'s inner loop
when the totals are nonzero: every bucket is multiplied by `1/total`. -/
def normalizedMarginal (m : Marginal) : Marginal :=
  { gene := fun g => m.gene g * (1 / geneTotal m)
    trait := fun t => m.trait t * (1 / traitTotal m) }

/-- One person's step of `normalize`: Python computes `1/total` for each of the
two distributions, raising `ZeroDivisionError` (modelled by `Except.error ()`)
when a total is zero. -/
def normalizeMarginal (m : Marginal) : Except Unit Marginal :=
  if geneTotal m = 0 ∨ traitTotal m = 0 then Except.error ()
  else Except.ok (normalizedMarginal m)

/-- `normalize(probabilities)` from the source, looping over the dictionary's
keys (the people's names) and rescaling each person's two distributions
in place; a zero total raises (`Except.error`). -/
def normalize : List String → Marginals → Except Unit Marginals
  | [], probs => Except.ok probs
  | name :: rest, probs =>
    match normalizeMarginal (probs name) with
    | Except.error e => Except.error e
    | Except.ok m => normalize rest (fun n => if n = name then m else probs n)

/-- `names = set(people)` in `main`, as a duplicate-free list (Python dict
keys are unique; `set(people)` iterates them). -/
def namesList (people : List Person) : List String :=
  (people.map Person.name).dedup

/-- The same name set as a `Finset`, for subset statements. -/
def namesOf (people : List Person) : Finset String :=
  (people.map Person.name).toFinset

/-- `powerset(s)` from the source: `s = list(s)` then all combinations of
every size, i.e. the list of all subsets of `s` — each exactly once when
the input list is duplicate-free. -/
def powerset (s : List String) : List (Finset String) :=
  s.sublists.map List.toFinset

/-- The `fails_evidence` test of `main`: some person's known trait
contradicts their membership in `have_trait`. -/
def fails_evidence (people : List Person) (have_trait : Finset String) : Bool :=
  people.any fun per =>
    match per.trait with
    | none => false
    | some t => t != decide (per.name ∈ have_trait)

/-- The triples `(have_trait, one_gene, two_genes)` visited by the nested
loops of `main`, in loop order: trait sets surviving the evidence filter,
then `one_gene` over all subsets of the names, then `two_genes` over all
subsets of `names - one_gene`. -/
def hypothesesList (people : List Person) :
    List (Finset String × Finset String × Finset String) :=
  ((powerset (namesList people)).filter fun ht => !fails_evidence people ht).flatMap fun ht =>
    (powerset (namesList people)).flatMap fun og =>
      (powerset ((namesList people).filter fun n => decide (n ∉ og))).map fun tg =>
        (ht, og, tg)

/-- The body of the innermost loop of `main`: score the hypothesis and
accumulate it into the marginals. -/
def stepFn (people : List Person) (probs : Marginals)
    (t : Finset String × Finset String × Finset String) : Marginals :=
  update probs t.2.1 t.2.2 t.1 (joint_probability people t.2.1 t.2.2 t.1)

/-- The state of `probabilities` after `main`'s enumeration loop has run. -/
def accumulate (people : List Person) : Marginals :=
  (hypothesesList people).foldl (stepFn people) initialMarginals

/-- The full computation of `main` after loading: enumerate, accumulate,
then normalize over the dictionary's keys. -/
def run (people : List Person) : Except Unit Marginals :=
  normalize (namesList people) (accumulate people)

/-- Observation of one gene bucket of the final table (`none` when
`normalize` raised). -/
def runGene (people : List Person) (name : String) (g : Fin 3) : Option ℚ :=
  (run people).toOption.map fun m => (m name).gene g

/-- Observation of one trait bucket of the final table. -/
def runTrait (people : List Person) (name : String) (b : Bool) : Option ℚ :=
  (run people).toOption.map fun m => (m name).trait b

/-- Rounding to four decimal places, as `print(f"{p:.4f}")` displays values. -/
def round4 (x : ℚ) : ℚ := (round (x * 10000) : ℤ) / 10000

/-- Follows the spec's words (§4.2): `childGeneDistribution(f, m)` built from
the two transmission probabilities, stated in the spec's order
(`P(2) = f·m`, `P(0) = (1−f)(1−m)`, `P(1) = f(1−m) + m(1−f)`); to be
compared with the branches of the source's `joint_probability`. -/
def childGeneDistribution (fg mg : Fin 3) : Fin 3 → ℚ := fun c =>
  let f := inherit_prob fg
  let m := inherit_prob mg
  if c = 2 then f * m
  else if c = 0 then (1 - f) * (1 - m)
  else f * (1 - m) + m * (1 - f)

/-- Follows the spec's words (§4.3): one individual's contribution, using the
prior when the individual has no recorded parents and otherwise the
`childGeneDistribution` entry computed from both parents' hypothesized gene
counts, times the conditional trait probability. -/
def spec_contribution (one_gene two_genes have_trait : Finset String) (per : Person) : ℚ :=
  let g := hypGeneCount one_gene two_genes per.name
  let gene_term :=
    match per.father, per.mother with
    | some f, some m =>
        childGeneDistribution
          (hypGeneCount one_gene two_genes f) (hypGeneCount one_gene two_genes m) g
    | _, _ => PROBS_gene g
  gene_term * PROBS_trait g (decide (per.name ∈ have_trait))

/-! ### Lemmas about the enumeration layer -/

/-- Two sublists of a duplicate-free list with the same elements are equal. -/
lemma sublist_eq_of_same_mem {α : Type _} :
    ∀ {l s t : List α}, l.Nodup → List.Sublist s l → List.Sublist t l →
      (∀ a, a ∈ s ↔ a ∈ t) → s = t := by
  intro l
  induction l with
  | nil =>
    intro s t _ hs ht _
    rw [List.sublist_nil.mp hs, List.sublist_nil.mp ht]
  | cons x l ih =>
    intro s t hl hs ht hmem
    have hx : x ∉ l := (List.nodup_cons.mp hl).1
    have hl' : l.Nodup := (List.nodup_cons.mp hl).2
    rcases List.sublist_cons_iff.mp hs with hs' | ⟨s', rfl, hs'⟩
    · rcases List.sublist_cons_iff.mp ht with ht' | ⟨t', rfl, ht'⟩
      · exact ih hl' hs' ht' hmem
      · have hxs : x ∈ s := (hmem x).mpr (List.mem_cons_self x t')
        exact absurd (hs'.subset hxs) hx
    · rcases List.sublist_cons_iff.mp ht with ht' | ⟨t', rfl, ht'⟩
      · have hxt : x ∈ t := (hmem x).mp (List.mem_cons_self x s')
        exact absurd (ht'.subset hxt) hx
      · have hmem' : ∀ a, a ∈ s' ↔ a ∈ t' := by
          intro a
          by_cases hax : a = x
          · subst hax
            constructor
            · intro h; exact absurd (hs'.subset h) hx
            · intro h; exact absurd (ht'.subset h) hx
          · have h := hmem a
            simp only [List.mem_cons] at h
            constructor
            · intro hm
              rcases h.mp (Or.inr hm) with h1 | h1
              · exact absurd h1 hax
              · exact h1
            · intro hm
              rcases h.mpr (Or.inr hm) with h1 | h1
              · exact absurd h1 hax
              · exact h1
        rw [ih hl' hs' ht' hmem']

/-- Membership in the modelled `powerset`: exactly the subsets of the input. -/
lemma mem_powerset_iff {l : List String} {s : Finset String} :
    s ∈ powerset l ↔ s ⊆ l.toFinset := by
  constructor
  · intro h
    rcases List.mem_map.mp h with ⟨u, hu, rfl⟩
    intro a ha
    rw [List.mem_toFinset] at ha ⊢
    exact (List.mem_sublists.mp hu).subset ha
  · intro hsub
    refine List.mem_map.mpr
      ⟨l.filter (fun a => decide (a ∈ s)), List.mem_sublists.mpr (List.filter_sublist l), ?_⟩
    ext a
    simp only [List.mem_toFinset, List.mem_filter, decide_eq_true_eq]
    exact ⟨fun h => h.2, fun h => ⟨List.mem_toFinset.mp (hsub h), h⟩⟩

/-- `powerset` of a duplicate-free list enumerates each subset exactly once. -/
lemma nodup_powerset {l : List String} (hl : l.Nodup) : (powerset l).Nodup := by
  refine List.Nodup.map_on ?_ (List.nodup_sublists.mpr hl)
  intro s hs t ht hst
  refine sublist_eq_of_same_mem hl (List.mem_sublists.mp hs) (List.mem_sublists.mp ht) ?_
  intro a
  rw [← List.mem_toFinset, hst, List.mem_toFinset]

/-- The name list of a pedigree is duplicate-free (it models dict keys). -/
lemma namesList_nodup (people : List Person) : (namesList people).Nodup :=
  List.nodup_dedup _

/-- The name list and the name set agree. -/
lemma toFinset_namesList (people : List Person) :
    (namesList people).toFinset = namesOf people := by
  ext a
  simp only [namesList, namesOf, List.mem_toFinset, List.mem_dedup]

/-- A person's name is a key of the `probabilities` dictionary. -/
lemma name_mem_namesList {people : List Person} {per : Person} (h : per ∈ people) :
    per.name ∈ namesList people :=
  (List.mem_dedup).mpr (List.mem_map_of_mem Person.name h)

/-- The evidence filter in `main`, characterized: it passes exactly when every
person with a recorded trait is hypothesized to match it. -/
lemma fails_evidence_eq_false_iff {people : List Person} {ht : Finset String} :
    fails_evidence people ht = false ↔
      ∀ per ∈ people, ∀ t : Bool, per.trait = some t → decide (per.name ∈ ht) = t := by
  rw [fails_evidence, List.any_eq_false]
  constructor
  · intro h per hper t htr
    have h2 := h per hper
    rw [htr] at h2
    have h3 : (t != decide (per.name ∈ ht)) = false := by
      cases hb : (t != decide (per.name ∈ ht))
      · rfl
      · exact absurd hb h2
    exact (bne_eq_false_iff_eq.mp h3).symm
  · intro h per hper
    cases htr : per.trait with
    | none => exact fun hb => Bool.false_ne_true hb
    | some t =>
      intro hb
      have h2 := h per hper t htr
      rw [h2] at hb
      exact Bool.false_ne_true (bne_self_eq_false t ▸ hb)

/-- Membership in the enumerated hypothesis list. -/
lemma mem_hypothesesList {people : List Person}
    {ht og tg : Finset String} :
    (ht, og, tg) ∈ hypothesesList people ↔
      (fails_evidence people ht = false ∧ ht ⊆ namesOf people
        ∧ og ⊆ namesOf people ∧ tg ⊆ namesOf people \ og) := by
  have hfil : ∀ n, n ∈ (namesList people).filter (fun n => decide (n ∉ og)) ↔
      n ∈ namesList people ∧ n ∉ og := by
    intro n; simp [List.mem_filter]
  constructor
  · intro h
    rcases List.mem_flatMap.mp h with ⟨ht', hht', h⟩
    rcases List.mem_flatMap.mp h with ⟨og', hog', h⟩
    rcases List.mem_map.mp h with ⟨tg', htg', heq⟩
    obtain ⟨rfl, rfl, rfl⟩ : ht' = ht ∧ og' = og ∧ tg' = tg := by
      have h1 := congrArg Prod.fst heq
      have h2 := congrArg (fun p => p.2.1) heq
      have h3 := congrArg (fun p => p.2.2) heq
      exact ⟨h1, h2, h3⟩
    have hmemf := List.mem_filter.mp hht'
    refine ⟨by simpa using hmemf.2, ?_, ?_, ?_⟩
    · have := mem_powerset_iff.mp hmemf.1
      rwa [toFinset_namesList] at this
    · have := mem_powerset_iff.mp hog'
      rwa [toFinset_namesList] at this
    · have := mem_powerset_iff.mp htg'
      intro a ha
      have h2 := this ha
      rw [List.mem_toFinset, hfil a] at h2
      rw [Finset.mem_sdiff, ← toFinset_namesList]
      exact ⟨List.mem_toFinset.mpr h2.1, h2.2⟩
  · rintro ⟨hev, hht, hog, htg⟩
    refine List.mem_flatMap.mpr ⟨ht, ?_, ?_⟩
    · refine List.mem_filter.mpr ⟨?_, by simpa using hev⟩
      exact mem_powerset_iff.mpr (by rwa [toFinset_namesList])
    refine List.mem_flatMap.mpr ⟨og, ?_, ?_⟩
    · exact mem_powerset_iff.mpr (by rwa [toFinset_namesList])
    refine List.mem_map.mpr ⟨tg, ?_, rfl⟩
    refine mem_powerset_iff.mpr ?_
    intro a ha
    have h2 := htg ha
    rw [Finset.mem_sdiff, ← toFinset_namesList, List.mem_toFinset] at h2
    rw [List.mem_toFinset, hfil a]
    exact h2

/-- The first component of any element produced by the inner two loops is the
trait set that drives them. -/
lemma hyp_inner_fst {people : List Person} {ht : Finset String} {x : Finset String × Finset String × Finset String}
    (h : x ∈ (powerset (namesList people)).flatMap fun og =>
      (powerset ((namesList people).filter fun n => decide (n ∉ og))).map fun tg => (ht, og, tg)) :
    x.1 = ht := by
  rcases List.mem_flatMap.mp h with ⟨og, _, h⟩
  rcases List.mem_map.mp h with ⟨tg, _, rfl⟩
  rfl

/-- Every hypothesis triple is enumerated exactly once. -/
lemma nodup_hypothesesList (people : List Person) : (hypothesesList people).Nodup := by
  rw [hypothesesList, List.nodup_flatMap]
  constructor
  · intro ht _
    rw [List.nodup_flatMap]
    constructor
    · intro og _
      refine List.Nodup.map ?_ (nodup_powerset ((namesList_nodup people).filter _))
      intro a b hab
      have := congrArg (fun p => p.2.2) hab
      exact this
    · refine List.Pairwise.imp ?_ (nodup_powerset (namesList_nodup people))
      intro og og' hne x hx hx'
      rcases List.mem_map.mp hx with ⟨tg, _, rfl⟩
      rcases List.mem_map.mp hx' with ⟨tg', _, heq⟩
      exact hne (congrArg (fun p => p.2.1) heq.symm)
  · refine List.Pairwise.imp ?_ ((nodup_powerset (namesList_nodup people)).filter _)
    intro ht ht' hne x hx hx'
    have h1 := hyp_inner_fst hx
    have h2 := hyp_inner_fst hx'
    exact hne (h1 ▸ h2 ▸ rfl)

/-! ### Lemmas about accumulation -/

/-- `update` adds `p` to the matching gene bucket. -/
lemma update_gene_self (probs : Marginals) (og tg ht : Finset String) (p : ℚ) (n : String) :
    ((update probs og tg ht p) n).gene (hypGeneCount og tg n)
      = (probs n).gene (hypGeneCount og tg n) + p := by
  simp [update]

/-- `update` leaves the other gene buckets alone. -/
lemma update_gene_other (probs : Marginals) (og tg ht : Finset String) (p : ℚ) (n : String)
    {g : Fin 3} (hg : g ≠ hypGeneCount og tg n) :
    ((update probs og tg ht p) n).gene g = (probs n).gene g := by
  simp only [update]
  exact Function.update_noteq hg _ _

/-- `update` adds `p` to the matching trait bucket. -/
lemma update_trait_self (probs : Marginals) (og tg ht : Finset String) (p : ℚ) (n : String) :
    ((update probs og tg ht p) n).trait (decide (n ∈ ht))
      = (probs n).trait (decide (n ∈ ht)) + p := by
  simp [update]

/-- `update` leaves the other trait bucket alone. -/
lemma update_trait_other (probs : Marginals) (og tg ht : Finset String) (p : ℚ) (n : String)
    {b : Bool} (hb : b ≠ decide (n ∈ ht)) :
    ((update probs og tg ht p) n).trait b = (probs n).trait b := by
  simp only [update]
  exact Function.update_noteq hb _ _

/-- Updating one point of a three-bucket table adds `p` to its total. -/
lemma sum3_update (f : Fin 3 → ℚ) (k : Fin 3) (p : ℚ) :
    Function.update f k (f k + p) 0 + Function.update f k (f k + p) 1
      + Function.update f k (f k + p) 2 = f 0 + f 1 + f 2 + p := by
  fin_cases k <;>
    simp [Function.update_apply, Fin.ext_iff] <;> ring

/-- Updating one point of a two-bucket table adds `p` to its total. -/
lemma sum2_update (f : Bool → ℚ) (k : Bool) (p : ℚ) :
    Function.update f k (f k + p) true + Function.update f k (f k + p) false
      = f true + f false + p := by
  cases k <;> simp [Function.update_apply] <;> ring

/-- One `update` raises every person's gene total by `p`. -/
lemma update_geneTotal (probs : Marginals) (og tg ht : Finset String) (p : ℚ) (n : String) :
    geneTotal ((update probs og tg ht p) n) = geneTotal (probs n) + p := by
  simp only [update, geneTotal]
  exact sum3_update _ _ p

/-- One `update` raises every person's trait total by `p`. -/
lemma update_traitTotal (probs : Marginals) (og tg ht : Finset String) (p : ℚ) (n : String) :
    traitTotal ((update probs og tg ht p) n) = traitTotal (probs n) + p := by
  simp only [update, traitTotal]
  exact sum2_update _ _ p

/-- The cumulative mass added by a run of the accumulation loop. -/
def jointSum (people : List Person)
    (L : List (Finset String × Finset String × Finset String)) : ℚ :=
  (L.map fun t => joint_probability people t.2.1 t.2.2 t.1).sum

/-- Folding the loop body raises every person's gene total by the sum of the
joint probabilities seen. -/
lemma foldl_geneTotal (people : List Person)
    (L : List (Finset String × Finset String × Finset String)) :
    ∀ (probs : Marginals) (n : String),
      geneTotal ((L.foldl (stepFn people) probs) n)
        = geneTotal (probs n) + jointSum people L := by
  induction L with
  | nil => intro probs n; simp [jointSum]
  | cons x L ih =>
    intro probs n
    rw [List.foldl_cons, ih]
    show geneTotal ((update probs x.2.1 x.2.2 x.1 _) n) + _ = _
    rw [update_geneTotal]
    simp only [jointSum, List.map_cons, List.sum_cons]
    ring

/-- Folding the loop body raises every person's trait total by the same sum. -/
lemma foldl_traitTotal (people : List Person)
    (L : List (Finset String × Finset String × Finset String)) :
    ∀ (probs : Marginals) (n : String),
      traitTotal ((L.foldl (stepFn people) probs) n)
        = traitTotal (probs n) + jointSum people L := by
  induction L with
  | nil => intro probs n; simp [jointSum]
  | cons x L ih =>
    intro probs n
    rw [List.foldl_cons, ih]
    show traitTotal ((update probs x.2.1 x.2.2 x.1 _) n) + _ = _
    rw [update_traitTotal]
    simp only [jointSum, List.map_cons, List.sum_cons]
    ring

/-- If every hypothesis in a run of the loop puts person `n` on trait side `t`,
the other trait bucket is never touched. -/
lemma foldl_trait_other (people : List Person)
    (L : List (Finset String × Finset String × Finset String)) (n : String) (b : Bool) :
    ∀ (probs : Marginals), (∀ x ∈ L, decide (n ∈ x.1) ≠ b) →
      ((L.foldl (stepFn people) probs) n).trait b = (probs n).trait b := by
  induction L with
  | nil => intro probs _; rfl
  | cons x L ih =>
    intro probs hL
    rw [List.foldl_cons]
    rw [ih _ fun y hy => hL y (List.mem_cons_of_mem x hy)]
    exact update_trait_other probs _ _ _ _ n (hL x (List.mem_cons_self x L)).symm

/-- Every person's accumulated gene total equals the total accumulated mass. -/
lemma accumulate_geneTotal (people : List Person) (n : String) :
    geneTotal ((accumulate people) n) = jointSum people (hypothesesList people) := by
  rw [accumulate, foldl_geneTotal]
  simp [initialMarginals, geneTotal]

/-- Every person's accumulated trait total equals the total accumulated mass. -/
lemma accumulate_traitTotal (people : List Person) (n : String) :
    traitTotal ((accumulate people) n) = jointSum people (hypothesesList people) := by
  rw [accumulate, foldl_traitTotal]
  simp [initialMarginals, traitTotal]

/-- A person with recorded trait `t` accumulates nothing on the other side:
every enumerated hypothesis passed the evidence filter. -/
lemma accumulate_trait_other {people : List Person} {per : Person} {t : Bool}
    (hmem : per ∈ people) (hobs : per.trait = some t) :
    ((accumulate people) per.name).trait (!t) = 0 := by
  rw [accumulate, foldl_trait_other]
  · rfl
  · rintro ⟨ht, og, tg⟩ hx
    have hev := (mem_hypothesesList.mp hx).1
    have := fails_evidence_eq_false_iff.mp hev per hmem t hobs
    rw [this]
    cases t <;> simp

/-! ### Lemmas about normalization -/

/-- `normalize` never touches names outside its key list. -/
lemma normalize_not_mem :
    ∀ (names : List String) (probs probs' : Marginals),
      normalize names probs = Except.ok probs' →
      ∀ n, n ∉ names → probs' n = probs n := by
  intro names
  induction names with
  | nil =>
    intro probs probs' h n _
    cases h
    rfl
  | cons name rest ih =>
    intro probs probs' h n hn
    rw [normalize] at h
    cases hm : normalizeMarginal (probs name) with
    | error e => rw [hm] at h; cases h
    | ok m =>
      rw [hm] at h
      have h2 := ih _ _ h n (fun hr => hn (List.mem_cons_of_mem _ hr))
      rw [h2]
      have hne : n ≠ name := fun he => hn (he ▸ List.mem_cons_self name rest)
      simp [hne]

/-- On a duplicate-free key list, a successful `normalize` rescales each listed
person's marginal by the reciprocals of its (necessarily nonzero) totals. -/
lemma normalize_ok_mem :
    ∀ (names : List String), names.Nodup → ∀ (probs probs' : Marginals),
      normalize names probs = Except.ok probs' →
      ∀ n ∈ names, geneTotal (probs n) ≠ 0 ∧ traitTotal (probs n) ≠ 0 ∧
        probs' n = normalizedMarginal (probs n) := by
  intro names
  induction names with
  | nil =>
    intro _ probs probs' _ n hn
    exact absurd hn (List.not_mem_nil n)
  | cons name rest ih =>
    intro hnd probs probs' h n hn
    rw [normalize] at h
    cases hm : normalizeMarginal (probs name) with
    | error e => rw [hm] at h; cases h
    | ok m =>
      rw [hm] at h
      have hnz : ¬(geneTotal (probs name) = 0 ∨ traitTotal (probs name) = 0) := by
        intro hz
        rw [normalizeMarginal, if_pos hz] at hm
        cases hm
      have hmval : m = normalizedMarginal (probs name) := by
        rw [normalizeMarginal, if_neg hnz] at hm
        cases hm
        rfl
      rcases List.mem_cons.mp hn with rfl | hr
      · refine ⟨fun hz => hnz (Or.inl hz), fun hz => hnz (Or.inr hz), ?_⟩
        have hnotr : n ∉ rest := (List.nodup_cons.mp hnd).1
        have := normalize_not_mem rest _ _ h n hnotr
        rw [this, hmval]
        simp
      · have hne : n ≠ name := by
          rintro rfl
          exact (List.nodup_cons.mp hnd).1 hr
        have h3 := ih (List.nodup_cons.mp hnd).2 _ _ h n hr
        simpa [hne] using h3

/-- If every listed person's totals are nonzero, `normalize` succeeds. -/
lemma normalize_ok_of_totals :
    ∀ (names : List String), names.Nodup → ∀ (probs : Marginals),
      (∀ n ∈ names, geneTotal (probs n) ≠ 0 ∧ traitTotal (probs n) ≠ 0) →
      ∃ probs', normalize names probs = Except.ok probs' := by
  intro names
  induction names with
  | nil => intro _ probs _; exact ⟨probs, rfl⟩
  | cons name rest ih =>
    intro hnd probs h
    have hnz : ¬(geneTotal (probs name) = 0 ∨ traitTotal (probs name) = 0) := by
      rintro (hz | hz)
      · exact (h name (List.mem_cons_self name rest)).1 hz
      · exact (h name (List.mem_cons_self name rest)).2 hz
    have hrest : ∀ n ∈ rest,
        geneTotal ((fun n' => if n' = name then normalizedMarginal (probs name)
          else probs n') n) ≠ 0 ∧
        traitTotal ((fun n' => if n' = name then normalizedMarginal (probs name)
          else probs n') n) ≠ 0 := by
      intro n hn
      have hne : n ≠ name := by
        rintro rfl
        exact (List.nodup_cons.mp hnd).1 hn
      simpa [hne] using h n (List.mem_cons_of_mem _ hn)
    rcases ih (List.nodup_cons.mp hnd).2 _ hrest with ⟨probs', hok⟩
    refine ⟨probs', ?_⟩
    rw [normalize, normalizeMarginal, if_neg hnz]
    exact hok

/-- If some listed person has a zero total, `normalize` raises. -/
lemma normalize_error_of_zero :
    ∀ (names : List String) (probs : Marginals) (n : String), n ∈ names →
      geneTotal (probs n) = 0 ∨ traitTotal (probs n) = 0 →
      normalize names probs = Except.error () := by
  intro names
  induction names with
  | nil =>
    intro probs n hn _
    exact absurd hn (List.not_mem_nil n)
  | cons name rest ih =>
    intro probs n hn hz
    rw [normalize]
    cases hm : normalizeMarginal (probs name) with
    | error e => rfl
    | ok m =>
      have hname : n ≠ name := by
        rintro rfl
        rw [normalizeMarginal, if_pos hz] at hm
        cases hm
      have hr : n ∈ rest := by
        rcases List.mem_cons.mp hn with h | h
        · exact absurd h hname
        · exact h
      refine ih _ n hr ?_
      simpa [hname] using hz

/-- Totals of the rescaled marginal are `1` when the original totals are nonzero. -/
lemma normalizedMarginal_totals {m : Marginal}
    (hg : geneTotal m ≠ 0) (ht : traitTotal m ≠ 0) :
    geneTotal (normalizedMarginal m) = 1 ∧ traitTotal (normalizedMarginal m) = 1 := by
  constructor
  · show m.gene 0 * (1 / geneTotal m) + m.gene 1 * (1 / geneTotal m)
      + m.gene 2 * (1 / geneTotal m) = 1
    rw [← add_mul, ← add_mul]
    show geneTotal m * (1 / geneTotal m) = 1
    field_simp
  · show m.trait true * (1 / traitTotal m) + m.trait false * (1 / traitTotal m) = 1
    rw [← add_mul]
    show traitTotal m * (1 / traitTotal m) = 1
    field_simp

/-! ### Relating the source's branches to the spec's childGeneDistribution -/

/-- The source's three-way branch agrees bucket-by-bucket with the spec's
`childGeneDistribution` (the two state the cases in different orders). -/
lemma twoParentGeneProb_eq_childGeneDistribution (fg mg g : Fin 3) :
    twoParentGeneProb (inherit_prob fg) (inherit_prob mg) g
      = childGeneDistribution fg mg g := by
  rw [twoParentGeneProb, childGeneDistribution]
  fin_cases g <;> simp

/-- Pointwise agreement of the source's per-person contribution with the
spec's, for a person whose parents are both recorded or both absent. -/
lemma person_prob_eq_spec (og tg ht : Finset String) (per : Person)
    (h : per.father = none ↔ per.mother = none) :
    person_prob og tg ht per = spec_contribution og tg ht per := by
  obtain ⟨nm, mo, fa, tr⟩ := per
  cases fa with
  | none =>
    have hmo : mo = none := by
      simpa using h.mp rfl
    subst hmo
    rfl
  | some f =>
    cases mo with
    | none =>
      exfalso
      have := h.mpr rfl
      simp at this
    | some m =>
      show (twoParentGeneProb _ _ _) * _ = (childGeneDistribution _ _ _) * _
      rw [twoParentGeneProb_eq_childGeneDistribution]
      rfl

/-! ### The claims -/

/-- Claim C1: for every pedigree (with the loader's invariant that the two
parent fields are both present or both absent) and every hypothesis,
`joint_probability` is the product over all individuals of gene-count term
times trait term, where the gene-count term is the prior for parentless
individuals and otherwise the `childGeneDistribution` entry computed from
both parents' hypothesized gene counts, and the trait term is
P(trait | gene count). -/
theorem joint_probability_matches_spec (people : List Person) (og tg ht : Finset String)
    (hpar : ∀ per ∈ people, (per.father = none ↔ per.mother = none)) :
    joint_probability people og tg ht
      = (people.map (spec_contribution og tg ht)).prod := by
  rw [joint_probability]
  induction people with
  | nil => rfl
  | cons per people ih =>
    rw [List.map_cons, List.map_cons, List.prod_cons, List.prod_cons]
    rw [person_prob_eq_spec og tg ht per (hpar per (List.mem_cons_self per people))]
    rw [ih fun q hq => hpar q (List.mem_cons_of_mem per hq)]

/-- Parent of the C1 witness pedigree. -/
def wparent : Person := { name := "P", mother := none, father := none, trait := none }

/-- Child of the C1 witness pedigree. -/
def wchild : Person := { name := "C", mother := some "P", father := some "P", trait := some false }

/-- Witness for C1 at a concrete two-person pedigree. -/
theorem joint_probability_matches_spec_witness :
    (∀ per ∈ [wparent, wchild], (per.father = none ↔ per.mother = none))
    ∧ joint_probability [wparent, wchild] (["P"].toFinset) ∅ ∅
        = ([wparent, wchild].map (spec_contribution (["P"].toFinset) ∅ ∅)).prod :=
  ⟨by decide, joint_probability_matches_spec [wparent, wchild] (["P"].toFinset) ∅ ∅ (by decide)⟩

/-- Claim C2: the triples visited by `main`'s loops are exactly those whose
trait set is a subset of the name set consistent with all recorded trait
evidence and whose two gene sets are disjoint subsets of the name set; each
such triple is visited exactly once, and a person in neither gene set is
hypothesized to carry zero copies. -/
theorem main_enumerates_consistent_hypotheses (people : List Person) :
    (∀ ht og tg : Finset String,
      (ht, og, tg) ∈ hypothesesList people ↔
        (ht ⊆ namesOf people
          ∧ (∀ per ∈ people, (per.trait = some true → per.name ∈ ht)
              ∧ (per.trait = some false → per.name ∉ ht))
          ∧ og ⊆ namesOf people ∧ tg ⊆ namesOf people ∧ Disjoint og tg))
    ∧ (hypothesesList people).Nodup
    ∧ (∀ og tg : Finset String, ∀ n : String,
        n ∉ og → n ∉ tg → hypGeneCount og tg n = 0) := by
  refine ⟨?_, nodup_hypothesesList people, ?_⟩
  · intro ht og tg
    rw [mem_hypothesesList]
    constructor
    · rintro ⟨hev, h1, h2, h3⟩
      have hcons := fails_evidence_eq_false_iff.mp hev
      refine ⟨h1, ?_, h2, (Finset.subset_sdiff.mp h3).1,
        ((Finset.subset_sdiff.mp h3).2).symm⟩
      intro per hper
      constructor
      · intro htr
        simpa using hcons per hper true htr
      · intro htr
        simpa using hcons per hper false htr
    · rintro ⟨h1, hcons, h2, h3, h4⟩
      refine ⟨?_, h1, h2, Finset.subset_sdiff.mpr ⟨h3, h4.symm⟩⟩
      apply fails_evidence_eq_false_iff.mpr
      intro per hper t htr
      cases t
      · simpa using (hcons per hper).2 htr
      · simpa using (hcons per hper).1 htr
  · intro og tg n hog htg
    rw [hypGeneCount, if_neg hog, if_neg htg]

/-- Claim C7: the transmission probability is 0.5 for one parental copy,
`1 − mutation = 0.99` for two copies and `mutation = 0.01` for none. -/
theorem inherit_prob_values :
    inherit_prob 1 = 1/2 ∧ inherit_prob 2 = 1 - PROBS_mutation
      ∧ inherit_prob 0 = PROBS_mutation
      ∧ 1 - PROBS_mutation = 99/100 ∧ PROBS_mutation = 1/100 := by
  refine ⟨rfl, rfl, rfl, by decide, rfl⟩

/-- Claim C8: for every pair of parent gene counts the three child gene-count
probabilities sum to 1 (stated both with the explicit products of the claim
and with the spec's `childGeneDistribution`). -/
theorem childGeneDistribution_sums_to_one (fg mg : Fin 3) :
    inherit_prob fg * inherit_prob mg
      + (1 - inherit_prob fg) * (1 - inherit_prob mg)
      + (inherit_prob fg * (1 - inherit_prob mg) + inherit_prob mg * (1 - inherit_prob fg)) = 1
    ∧ childGeneDistribution fg mg 0 + childGeneDistribution fg mg 1
        + childGeneDistribution fg mg 2 = 1 := by
  constructor
  · ring
  · have h0 : childGeneDistribution fg mg 0
        = (1 - inherit_prob fg) * (1 - inherit_prob mg) := rfl
    have h1 : childGeneDistribution fg mg 1
        = inherit_prob fg * (1 - inherit_prob mg) + inherit_prob mg * (1 - inherit_prob fg) := rfl
    have h2 : childGeneDistribution fg mg 2 = inherit_prob fg * inherit_prob mg := rfl
    rw [h0, h1, h2]
    ring

/-- Claim C9: a person with exactly one recorded parent is scored by the
two-parent branch, never the prior, and the missing parent contributes the
mutation rate as its transmission probability (it is treated as carrying
zero copies). -/
theorem single_parent_two_parent_branch (og tg ht : Finset String) (per : Person)
    (h : per.father.isNone ≠ per.mother.isNone) :
    person_prob og tg ht per =
      twoParentGeneProb
        (per.father.elim PROBS_mutation fun f => inherit_prob (hypGeneCount og tg f))
        (per.mother.elim PROBS_mutation fun m => inherit_prob (hypGeneCount og tg m))
        (hypGeneCount og tg per.name)
      * PROBS_trait (hypGeneCount og tg per.name) (decide (per.name ∈ ht)) := by
  obtain ⟨nm, mo, fa, tr⟩ := per
  cases fa <;> cases mo
  · exact absurd rfl h
  · rfl
  · rfl
  · exact absurd rfl h

/-- The C9 witness person: a recorded mother, no recorded father. -/
def wsingle : Person := { name := "S", mother := some "M", father := none, trait := none }

/-- Witness for C9 at a concrete one-parent person. -/
theorem single_parent_two_parent_branch_witness :
    wsingle.father.isNone ≠ wsingle.mother.isNone
    ∧ person_prob ∅ ∅ ∅ wsingle =
        twoParentGeneProb
          (wsingle.father.elim PROBS_mutation fun f => inherit_prob (hypGeneCount ∅ ∅ f))
          (wsingle.mother.elim PROBS_mutation fun m => inherit_prob (hypGeneCount ∅ ∅ m))
          (hypGeneCount ∅ ∅ wsingle.name)
        * PROBS_trait (hypGeneCount ∅ ∅ wsingle.name)
            (decide (wsingle.name ∈ (∅ : Finset String))) :=
  ⟨by decide, single_parent_two_parent_branch ∅ ∅ ∅ wsingle (by decide)⟩

/-- Claim C10: one call to `update` adds `p` to exactly one gene bucket (the
hypothesized gene count) and one trait bucket (membership in `have_trait`)
of every person's marginals, and leaves every other bucket unchanged. -/
theorem update_adds_to_exactly_one_bucket (probs : Marginals) (og tg ht : Finset String)
    (p : ℚ) (n : String) :
    ((update probs og tg ht p) n).gene (hypGeneCount og tg n)
        = (probs n).gene (hypGeneCount og tg n) + p
      ∧ (∀ g : Fin 3, g ≠ hypGeneCount og tg n →
          ((update probs og tg ht p) n).gene g = (probs n).gene g)
      ∧ ((update probs og tg ht p) n).trait (decide (n ∈ ht))
          = (probs n).trait (decide (n ∈ ht)) + p
      ∧ (∀ b : Bool, b ≠ decide (n ∈ ht) →
          ((update probs og tg ht p) n).trait b = (probs n).trait b) :=
  ⟨update_gene_self probs og tg ht p n,
    fun _ hg => update_gene_other probs og tg ht p n hg,
    update_trait_self probs og tg ht p n,
    fun _ hb => update_trait_other probs og tg ht p n hb⟩

/-- Claim C3: an individual with recorded trait evidence ends, after the full
computation, with trait probability 1 on the observed value and 0 on the
other, provided the observed value accumulated nonzero mass. -/
theorem known_trait_posterior (people : List Person) (per : Person) (hmem : per ∈ people)
    (t : Bool) (hobs : per.trait = some t)
    (hmass : ((accumulate people) per.name).trait t ≠ 0) :
    ∃ final, run people = Except.ok final ∧
      (final per.name).trait t = 1 ∧ (final per.name).trait (!t) = 0 := by
  have hother := accumulate_trait_other hmem hobs
  have htt : traitTotal ((accumulate people) per.name)
      = ((accumulate people) per.name).trait t := by
    rw [traitTotal]
    cases t
    · rw [show (!false) = true from rfl] at hother
      rw [hother]
      ring
    · rw [show (!true) = false from rfl] at hother
      rw [hother]
      ring
  have hS : jointSum people (hypothesesList people) ≠ 0 := by
    rw [← accumulate_traitTotal people per.name, htt]
    exact hmass
  have hall : ∀ n ∈ namesList people,
      geneTotal ((accumulate people) n) ≠ 0 ∧ traitTotal ((accumulate people) n) ≠ 0 := by
    intro n _
    rw [accumulate_geneTotal, accumulate_traitTotal]
    exact ⟨hS, hS⟩
  rcases normalize_ok_of_totals (namesList people) (namesList_nodup people) _ hall
    with ⟨final, hok⟩
  have hmm := normalize_ok_mem (namesList people) (namesList_nodup people) _ _ hok
    per.name (name_mem_namesList hmem)
  have hfin : final per.name = normalizedMarginal ((accumulate people) per.name) := hmm.2.2
  refine ⟨final, by rw [run]; exact hok, ?_, ?_⟩
  · rw [hfin]
    show ((accumulate people) per.name).trait t
        * (1 / traitTotal ((accumulate people) per.name)) = 1
    rw [htt]
    field_simp
  · rw [hfin]
    show ((accumulate people) per.name).trait (!t)
        * (1 / traitTotal ((accumulate people) per.name)) = 0
    rw [hother]
    ring

/-- The single-person pedigree of the spec's concrete scenario (§8.5). -/
def alice : Person := { name := "Alice", mother := none, father := none, trait := some true }

/-- Witness for C3 on the concrete single-person pedigree. -/
theorem known_trait_posterior_witness :
    alice ∈ [alice] ∧ alice.trait = some true
    ∧ ((accumulate [alice]) "Alice").trait true ≠ 0
    ∧ (∃ final, run [alice] = Except.ok final ∧
        (final "Alice").trait true = 1 ∧ (final "Alice").trait false = 0) :=
  ⟨by decide, rfl, by decide,
    known_trait_posterior [alice] alice (by decide) true rfl (by decide)⟩

/-- Claim C4: after a successful `normalize`, each listed individual whose two
totals were strictly positive has gene and trait distributions summing to 1,
with the same relative proportions as before. -/
theorem normalize_distributions (names : List String) (hnd : names.Nodup)
    (probs probs' : Marginals) (hok : normalize names probs = Except.ok probs')
    (n : String) (hmem : n ∈ names)
    (hg : 0 < geneTotal (probs n)) (htr : 0 < traitTotal (probs n)) :
    geneTotal (probs' n) = 1 ∧ traitTotal (probs' n) = 1
      ∧ (∀ g g' : Fin 3, (probs' n).gene g * (probs n).gene g'
            = (probs' n).gene g' * (probs n).gene g)
      ∧ (∀ b b' : Bool, (probs' n).trait b * (probs n).trait b'
            = (probs' n).trait b' * (probs n).trait b) := by
  have hmm := normalize_ok_mem names hnd probs probs' hok n hmem
  have hfin := hmm.2.2
  have h1 := normalizedMarginal_totals hmm.1 hmm.2.1
  refine ⟨by rw [hfin]; exact h1.1, by rw [hfin]; exact h1.2, ?_, ?_⟩
  · intro g g'
    rw [hfin]
    show (probs n).gene g * (1 / geneTotal (probs n)) * (probs n).gene g'
        = (probs n).gene g' * (1 / geneTotal (probs n)) * (probs n).gene g
    ring
  · intro b b'
    rw [hfin]
    show (probs n).trait b * (1 / traitTotal (probs n)) * (probs n).trait b'
        = (probs n).trait b' * (1 / traitTotal (probs n)) * (probs n).trait b
    ring

/-- A concrete marginals table with positive totals, for the C4 witness. -/
def wprobs : Marginals := fun _ =>
  { gene := fun g => if g = 0 then 1 else if g = 1 then 1 else 2
    trait := fun b => if b then 1 else 3 }

/-- The table `normalize` produces from `wprobs` on the key list `["A"]`. -/
def wnormalized : Marginals := fun n =>
  if n = "A" then normalizedMarginal (wprobs "A") else wprobs n

/-- Witness for C4 on a concrete one-key table. -/
theorem normalize_distributions_witness :
    (["A"] : List String).Nodup
    ∧ 0 < geneTotal (wprobs "A") ∧ 0 < traitTotal (wprobs "A")
    ∧ geneTotal (wnormalized "A") = 1 ∧ traitTotal (wnormalized "A") = 1
    ∧ (wnormalized "A").gene 0 * (wprobs "A").gene 2
        = (wnormalized "A").gene 2 * (wprobs "A").gene 0 :=
  have h := normalize_distributions ["A"] (by decide) wprobs wnormalized rfl
    "A" (by decide) (by decide) (by decide)
  ⟨by decide, by decide, by decide, h.1, h.2.1, h.2.2.1 0 2⟩

/-- Counterexample for C5: on the spec's single-individual scenario the
normalized gene distribution rounded to four decimals is 0.2918 for zero
copies and 0.5106 for one copy, not the 0.2917 and 0.5107 the spec states. -/
theorem alice_rounded_values_differ :
    (runGene [alice] "Alice" 0).map round4 = some (2918/10000)
    ∧ (2918/10000 : ℚ) ≠ 2917/10000
    ∧ (runGene [alice] "Alice" 1).map round4 = some (5106/10000)
    ∧ (5106/10000 : ℚ) ≠ 5107/10000 :=
  ⟨by decide, by decide, by decide, by decide⟩

/-- Claim C5 as amended: the unnormalized masses are 0.0096, 0.0168, 0.0065
(sum 0.0329), the normalized gene distribution rounded to four decimals is
{0: 0.2918, 1: 0.5106, 2: 0.1976}, and the trait distribution is
{true: 1, false: 0}. -/
theorem alice_scenario :
    (accumulate [alice] "Alice").gene 0 = 96/10000
    ∧ (accumulate [alice] "Alice").gene 1 = 168/10000
    ∧ (accumulate [alice] "Alice").gene 2 = 65/10000
    ∧ geneTotal (accumulate [alice] "Alice") = 329/10000
    ∧ (runGene [alice] "Alice" 0).map round4 = some (2918/10000)
    ∧ (runGene [alice] "Alice" 1).map round4 = some (5106/10000)
    ∧ (runGene [alice] "Alice" 2).map round4 = some (1976/10000)
    ∧ runTrait [alice] "Alice" true = some 1
    ∧ runTrait [alice] "Alice" false = some 0 :=
  ⟨by decide, by decide, by decide, by decide, by decide, by decide, by decide,
    by decide, by decide⟩

/-- Counterexample for C6: on a table whose distribution sums to exactly 0,
`normalize` raises (Python: `ZeroDivisionError`) — it does not return a
table of values at all, silently or otherwise. -/
theorem normalize_zero_raises_counterexample :
    geneTotal (initialMarginals "A") = 0
    ∧ normalize ["A"] initialMarginals = Except.error () :=
  ⟨by decide, rfl⟩

/-- Claim C6 as amended: if some listed individual's distribution sums to
exactly 0, `normalize` raises `ZeroDivisionError` (modelled as returning
`Except.error ()`) rather than silently producing values. -/
theorem normalize_zero_total_raises (names : List String) (probs : Marginals) (n : String)
    (hmem : n ∈ names) (hz : geneTotal (probs n) = 0 ∨ traitTotal (probs n) = 0) :
    normalize names probs = Except.error () :=
  normalize_error_of_zero names probs n hmem hz

/-- Witness for C6's amended claim on a concrete all-zero table. -/
theorem normalize_zero_total_raises_witness :
    "B" ∈ ["B"] ∧ geneTotal (initialMarginals "B") = 0
    ∧ normalize ["B"] initialMarginals = Except.error () :=
  ⟨by decide, by decide,
    normalize_zero_total_raises ["B"] initialMarginals "B" (by decide) (Or.inl (by decide))⟩

end Heredity
